import Mathlib

/-!
Verification of the CHROMAssembly symmetry-informed bond-coloring engine.

The repository's algorithm package (`algorithm/lattice`, `algorithm/symmetry`,
`algorithm/painting`) is exercised through `notebooks/algorithm.ipynb`; the
data model and the operations below are a shallow embedding of that engine.
Where only the notebook and the design documentation describe an operation,
the corresponding definition is modelled from the spec and says so in its
doc comment.
-/

namespace Chroma

/-- The six bond directions of a voxel, in canonical order
`(+x, -x, +y, -y, +z, -z)`. -/
inductive Dir where
  | px | mx | py | my | pz | mz
deriving DecidableEq, Fintype, Repr

/-- The opposite of a direction. -/
def Dir.opp : Dir → Dir
  | .px => .mx
  | .mx => .px
  | .py => .my
  | .my => .py
  | .pz => .mz
  | .mz => .pz

theorem Dir.opp_opp (d : Dir) : d.opp.opp = d := by cases d <;> rfl

theorem Dir.opp_ne (d : Dir) : d.opp ≠ d := by cases d <;> decide

/-- Decide a universally quantified property of the six directions by
checking each constructor. -/
instance decAllDir (P : Dir → Prop) [DecidablePred P] : Decidable (∀ d, P d) :=
  decidable_of_iff (P .px ∧ P .mx ∧ P .py ∧ P .my ∧ P .pz ∧ P .mz)
    (by
      constructor
      · rintro ⟨h1, h2, h3, h4, h5, h6⟩ d
        cases d <;> assumption
      · intro h
        exact ⟨h .px, h .mx, h .py, h .my, h .pz, h .mz⟩)

/-- Decide an existentially quantified property of the six directions by
checking each constructor. -/
instance decExDir (P : Dir → Prop) [DecidablePred P] : Decidable (∃ d, P d) :=
  decidable_of_iff (P .px ∨ P .mx ∨ P .py ∨ P .my ∨ P .pz ∨ P .mz)
    (by
      constructor
      · rintro (h | h | h | h | h | h) <;> exact ⟨_, h⟩
      · rintro ⟨d, h⟩
        cases d <;> tauto)

/-- A position in the finite unit cell, as integer grid coordinates. -/
abbrev Pos := ℕ × ℕ × ℕ

/-- Step one unit forward along an axis of period `n`, wrapping periodically. -/
def stepF (n x : ℕ) : ℕ := (x + 1) % n

/-- Step one unit backward along an axis of period `n`, wrapping periodically. -/
def stepB (n x : ℕ) : ℕ := (x + (n - 1)) % n

theorem stepF_lt {n : ℕ} (x : ℕ) (h : 0 < n) : stepF n x < n :=
  Nat.mod_lt _ h

theorem stepB_lt {n : ℕ} (x : ℕ) (h : 0 < n) : stepB n x < n :=
  Nat.mod_lt _ h

theorem stepB_stepF {n x : ℕ} (h : x < n) : stepB n (stepF n x) = x := by
  unfold stepB stepF
  rcases Nat.lt_or_ge (x + 1) n with h1 | h1
  · rw [Nat.mod_eq_of_lt h1]
    have hx : x + 1 + (n - 1) = x + n := by omega
    rw [hx, Nat.add_mod_right]
    exact Nat.mod_eq_of_lt h
  · have hx : x + 1 = n := by omega
    rw [hx, Nat.mod_self, Nat.zero_add, Nat.mod_eq_of_lt (by omega)]
    omega

theorem stepF_stepB {n x : ℕ} (h : x < n) : stepF n (stepB n x) = x := by
  unfold stepB stepF
  rcases Nat.eq_zero_or_pos x with h0 | h0
  · subst h0
    have h1 : (0 + (n - 1)) % n = n - 1 := by
      rw [Nat.zero_add]; exact Nat.mod_eq_of_lt (by omega)
    have h2 : n - 1 + 1 = n := by omega
    rw [h1, h2, Nat.mod_self]
  · have h1 : (x + (n - 1)) % n = x - 1 := by
      have hx : x + (n - 1) = (x - 1) + n := by omega
      rw [hx, Nat.add_mod_right]
      exact Nat.mod_eq_of_lt (by omega)
    have h2 : x - 1 + 1 = x := by omega
    rw [h1, h2]
    exact Nat.mod_eq_of_lt h

/-- The lattice: a finite 3D periodic unit cell of voxels.  Each grid position
carries an integer material label (`0` denotes the "empty" label) and six
directional bond slots, each holding a signed integer color (`0` = unpainted,
`+c`/`-c` a complementary pair). -/
structure Lattice where
  nx : ℕ
  ny : ℕ
  nz : ℕ
  material : Pos → ℕ
  color : Pos → Dir → ℤ

/-- A position lies inside the finite unit cell. -/
def validPos (L : Lattice) (p : Pos) : Prop :=
  p.1 < L.nx ∧ p.2.1 < L.ny ∧ p.2.2 < L.nz

instance (L : Lattice) (p : Pos) : Decidable (validPos L p) := by
  unfold validPos; infer_instance

/-- The adjacent position in direction `d`, taken modulo the periodic
unit cell. -/
def nbr (L : Lattice) (p : Pos) (d : Dir) : Pos :=
  match d with
  | .px => (stepF L.nx p.1, p.2.1, p.2.2)
  | .mx => (stepB L.nx p.1, p.2.1, p.2.2)
  | .py => (p.1, stepF L.ny p.2.1, p.2.2)
  | .my => (p.1, stepB L.ny p.2.1, p.2.2)
  | .pz => (p.1, p.2.1, stepF L.nz p.2.2)
  | .mz => (p.1, p.2.1, stepB L.nz p.2.2)

theorem nbr_valid {L : Lattice} {p : Pos} (h : validPos L p) (d : Dir) :
    validPos L (nbr L p d) := by
  obtain ⟨h1, h2, h3⟩ := h
  cases d <;>
    exact ⟨by first | exact stepF_lt _ (by omega) | exact stepB_lt _ (by omega) | assumption,
           by first | exact stepF_lt _ (by omega) | exact stepB_lt _ (by omega) | assumption,
           by first | exact stepF_lt _ (by omega) | exact stepB_lt _ (by omega) | assumption⟩

theorem nbr_nbr {L : Lattice} {p : Pos} (h : validPos L p) (d : Dir) :
    nbr L (nbr L p d) d.opp = p := by
  obtain ⟨h1, h2, h3⟩ := h
  obtain ⟨x, y, z⟩ := p
  cases d <;>
    simp only [nbr, Dir.opp] <;>
    first
      | rw [stepB_stepF h1] | rw [stepF_stepB h1]
      | rw [stepB_stepF h2] | rw [stepF_stepB h2]
      | rw [stepB_stepF h3] | rw [stepF_stepB h3]

/-- Modelled from the spec: a single bond-pair color assignment of the Painter
(`algorithm/painting/Painter2.py`, absent from the sources).  Painting a slot
always paints its partner slot in the same operation: the slot `(pos, dir)`
receives `col` and the partner slot on the adjacent voxel receives the same
color when the two voxels share a material (structural bond) and the negated
color otherwise (complementary bond). -/
structure PaintOp where
  pos : Pos
  dir : Dir
  col : ℤ

/-- Overwrite one bond slot of the lattice. -/
def setColor (L : Lattice) (p : Pos) (d : Dir) (c : ℤ) : Lattice :=
  { L with color := fun q e => if q = p ∧ e = d then c else L.color q e }

/-- The color the partner slot receives when `c` is painted across a bond:
the same color for a structural (same-material) bond, the negation for a
complementary (cross-material) bond. -/
def partnerColor (L : Lattice) (p : Pos) (d : Dir) (c : ℤ) : ℤ :=
  if L.material p = L.material (nbr L p d) then c else -c

/-- Modelled from the spec: the binding constraints checked before every color
assignment in both phases — the color is nonzero, the bond pair is unpainted,
and neither endpoint voxel already carries the complement of the color it is
about to receive (the "no palindromes" guard).  A violated guard is the hard
`PalindromeViolation` failure of the design, modelled as `none`. -/
def paintGuard (L : Lattice) (op : PaintOp) : Prop :=
  op.col ≠ 0 ∧ validPos L op.pos ∧
    L.color op.pos op.dir = 0 ∧
    L.color (nbr L op.pos op.dir) op.dir.opp = 0 ∧
    (∀ e, L.color op.pos e ≠ -op.col) ∧
    (∀ e, L.color (nbr L op.pos op.dir) e ≠ -(partnerColor L op.pos op.dir op.col))

instance (L : Lattice) (op : PaintOp) : Decidable (paintGuard L op) := by
  unfold paintGuard; infer_instance

/-- Apply one guarded bond-pair assignment; `none` models the fatal
`PalindromeViolation` / invalid-assignment abort. -/
def applyOp (L : Lattice) (op : PaintOp) : Option Lattice :=
  if paintGuard L op then
    some (setColor (setColor L op.pos op.dir op.col)
      (nbr L op.pos op.dir) op.dir.opp (partnerColor L op.pos op.dir op.col))
  else
    none

/-- Run a whole sequence of guarded paint operations, aborting on the first
failure. -/
def applyOps (L : Lattice) : List PaintOp → Option Lattice
  | [] => some L
  | op :: ops =>
    match applyOp L op with
    | some L' => applyOps L' ops
    | none => none

/-- A lattice freshly built from an input grid of material labels: every bond
slot starts unpainted. -/
def mkLattice (nx ny nz : ℕ) (mat : Pos → ℕ) : Lattice :=
  ⟨nx, ny, nz, mat, fun _ _ => 0⟩

/-- No-palindromes invariant: no voxel simultaneously carries a nonzero color
`c` and its complement `-c` across its six slots. -/
def noPalin (L : Lattice) : Prop :=
  ∀ p, validPos L p → ∀ d e, L.color p d ≠ 0 → L.color p e ≠ -(L.color p d)

/-- Complementarity invariant as the painting model maintains it: a painted
slot's partner slot holds the same color across a structural (same-material)
bond and the negated color across a complementary (cross-material) bond. -/
def compOk (L : Lattice) : Prop :=
  ∀ p, validPos L p → ∀ d, L.color p d ≠ 0 →
    L.color (nbr L p d) d.opp = partnerColor L p d (L.color p d)

/-- Every slot of every voxel of the unit cell is painted. -/
def fullyPainted (L : Lattice) : Prop :=
  ∀ p, validPos L p → ∀ d, L.color p d ≠ 0

/-- The complementarity property exactly as the spec states it: every painted
slot's partner holds the negated color, with no structural exception. -/
def strictComplementarity (L : Lattice) : Prop :=
  ∀ p, validPos L p → ∀ d, L.color p d ≠ 0 →
    L.color (nbr L p d) d.opp = -(L.color p d)

theorem setColor_color (L : Lattice) (p : Pos) (d : Dir) (c : ℤ) (q : Pos) (e : Dir) :
    (setColor L p d c).color q e = if q = p ∧ e = d then c else L.color q e := rfl

theorem applyOp_eq {L L' : Lattice} {op : PaintOp} (h : applyOp L op = some L') :
    paintGuard L op ∧
      L' = setColor (setColor L op.pos op.dir op.col)
        (nbr L op.pos op.dir) op.dir.opp (partnerColor L op.pos op.dir op.col) := by
  unfold applyOp at h
  split at h
  · exact ⟨by assumption, (Option.some.inj h).symm⟩
  · cases h

theorem partnerColor_invol {L : Lattice} {p : Pos} (d : Dir) (c : ℤ)
    (hvp : validPos L p) :
    partnerColor L (nbr L p d) d.opp (partnerColor L p d c) = c := by
  unfold partnerColor
  rw [nbr_nbr hvp d]
  by_cases hm : L.material p = L.material (nbr L p d)
  · rw [if_pos hm, if_pos hm.symm]
  · rw [if_neg hm, if_neg (fun hh => hm hh.symm), neg_neg]

theorem partnerColor_self {L : Lattice} {p : Pos} {d : Dir} (c : ℤ)
    (hpq : p = nbr L p d) : partnerColor L p d c = c := by
  unfold partnerColor
  rw [if_pos (by rw [← hpq])]

theorem applyOp_material {L L' : Lattice} {op : PaintOp}
    (h : applyOp L op = some L') : L'.material = L.material := by
  unfold applyOp at h
  split at h
  · cases h; rfl
  · cases h

theorem applyOp_dims {L L' : Lattice} {op : PaintOp}
    (h : applyOp L op = some L') : L'.nx = L.nx ∧ L'.ny = L.ny ∧ L'.nz = L.nz := by
  unfold applyOp at h
  split at h
  · cases h; exact ⟨rfl, rfl, rfl⟩
  · cases h

theorem applyOp_noPalin {L L' : Lattice} {op : PaintOp}
    (h : applyOp L op = some L') (hn : noPalin L) : noPalin L' := by
  obtain ⟨⟨hc0, hvp, hu1, hu2, hpal1, hpal2⟩, rfl⟩ := applyOp_eq h
  intro r hr d1 d2 h1 heq
  have hrL : validPos L r := hr
  have hval : ∀ e, (setColor (setColor L op.pos op.dir op.col)
      (nbr L op.pos op.dir) op.dir.opp (partnerColor L op.pos op.dir op.col)).color r e
      = if r = nbr L op.pos op.dir ∧ e = op.dir.opp
          then partnerColor L op.pos op.dir op.col
        else if r = op.pos ∧ e = op.dir then op.col
        else L.color r e := fun _ => rfl
  rw [hval d1] at h1 heq
  rw [hval d2] at heq
  have hpc : partnerColor L op.pos op.dir op.col = op.col ∨
      partnerColor L op.pos op.dir op.col = -op.col := by
    unfold partnerColor; split
    · exact Or.inl rfl
    · exact Or.inr rfl
  by_cases hA : r = nbr L op.pos op.dir ∧ d1 = op.dir.opp
  · rw [if_pos hA] at h1 heq
    by_cases hC : r = nbr L op.pos op.dir ∧ d2 = op.dir.opp
    · rw [if_pos hC] at heq
      rcases hpc with hh | hh <;> rw [hh] at heq <;> omega
    · rw [if_neg hC] at heq
      by_cases hD : r = op.pos ∧ d2 = op.dir
      · rw [if_pos hD] at heq
        have hpq : op.pos = nbr L op.pos op.dir := by
          rw [← hA.1]; exact hD.1.symm
        rw [partnerColor_self op.col hpq] at heq
        omega
      · rw [if_neg hD] at heq
        exact hpal2 d2 (hA.1 ▸ heq)
  · rw [if_neg hA] at h1 heq
    by_cases hB : r = op.pos ∧ d1 = op.dir
    · rw [if_pos hB] at h1 heq
      by_cases hC : r = nbr L op.pos op.dir ∧ d2 = op.dir.opp
      · rw [if_pos hC] at heq
        have hpq : op.pos = nbr L op.pos op.dir := by
          rw [← hC.1]; exact hB.1.symm
        rw [partnerColor_self op.col hpq] at heq
        omega
      · rw [if_neg hC] at heq
        by_cases hD : r = op.pos ∧ d2 = op.dir
        · rw [if_pos hD] at heq; omega
        · rw [if_neg hD] at heq
          exact hpal1 d2 (hB.1 ▸ heq)
    · rw [if_neg hB] at h1 heq
      by_cases hC : r = nbr L op.pos op.dir ∧ d2 = op.dir.opp
      · rw [if_pos hC] at heq
        have hx : L.color r d1 = -(partnerColor L op.pos op.dir op.col) := by omega
        exact hpal2 d1 (hC.1 ▸ hx)
      · rw [if_neg hC] at heq
        by_cases hD : r = op.pos ∧ d2 = op.dir
        · rw [if_pos hD] at heq
          have hx : L.color r d1 = -op.col := by omega
          exact hpal1 d1 (hD.1 ▸ hx)
        · rw [if_neg hD] at heq
          exact hn r hrL d1 d2 h1 heq

theorem applyOp_compOk {L L' : Lattice} {op : PaintOp}
    (h : applyOp L op = some L') (hc : compOk L) : compOk L' := by
  obtain ⟨⟨hc0, hvp, hu1, hu2, hpal1, hpal2⟩, rfl⟩ := applyOp_eq h
  intro r hr e hne
  have hrL : validPos L r := hr
  have hval : ∀ s f, (setColor (setColor L op.pos op.dir op.col)
      (nbr L op.pos op.dir) op.dir.opp (partnerColor L op.pos op.dir op.col)).color s f
      = if s = nbr L op.pos op.dir ∧ f = op.dir.opp
          then partnerColor L op.pos op.dir op.col
        else if s = op.pos ∧ f = op.dir then op.col
        else L.color s f := fun _ _ => rfl
  have hnbr : ∀ s f, nbr (setColor (setColor L op.pos op.dir op.col)
      (nbr L op.pos op.dir) op.dir.opp (partnerColor L op.pos op.dir op.col)) s f
      = nbr L s f := fun _ _ => rfl
  have hpcL : ∀ s f x, partnerColor (setColor (setColor L op.pos op.dir op.col)
      (nbr L op.pos op.dir) op.dir.opp (partnerColor L op.pos op.dir op.col)) s f x
      = partnerColor L s f x := fun _ _ _ => rfl
  rw [hval r e] at hne
  rw [hnbr, hpcL, hval (nbr L r e) e.opp, hval r e]
  by_cases hA : r = nbr L op.pos op.dir ∧ e = op.dir.opp
  · obtain ⟨ha1, ha2⟩ := hA
    rw [ha1, ha2, nbr_nbr hvp op.dir, Dir.opp_opp]
    rw [if_neg (show ¬(op.pos = nbr L op.pos op.dir ∧ op.dir = op.dir.opp) from
      fun hh => Dir.opp_ne op.dir hh.2.symm)]
    rw [if_pos (show op.pos = op.pos ∧ op.dir = op.dir from ⟨rfl, rfl⟩)]
    rw [if_pos (show nbr L op.pos op.dir = nbr L op.pos op.dir ∧
      op.dir.opp = op.dir.opp from ⟨rfl, rfl⟩)]
    exact (partnerColor_invol op.dir op.col hvp).symm
  · by_cases hB : r = op.pos ∧ e = op.dir
    · obtain ⟨hb1, hb2⟩ := hB
      rw [hb1, hb2]
      rw [if_pos (show nbr L op.pos op.dir = nbr L op.pos op.dir ∧
        op.dir.opp = op.dir.opp from ⟨rfl, rfl⟩)]
      rw [if_neg (show ¬(op.pos = nbr L op.pos op.dir ∧ op.dir = op.dir.opp) from
        fun hh => Dir.opp_ne op.dir hh.2.symm)]
      rw [if_pos (show op.pos = op.pos ∧ op.dir = op.dir from ⟨rfl, rfl⟩)]
    · rw [if_neg hA, if_neg hB] at hne
      have hP : ¬(nbr L r e = nbr L op.pos op.dir ∧ e.opp = op.dir.opp) := by
        rintro ⟨hh1, hh2⟩
        have he : e = op.dir := by
          have hco := congrArg Dir.opp hh2
          rwa [Dir.opp_opp, Dir.opp_opp] at hco
        have h1 := nbr_nbr hrL e
        rw [hh1, he, nbr_nbr hvp op.dir] at h1
        exact hB ⟨h1.symm, he⟩
      have hQ : ¬(nbr L r e = op.pos ∧ e.opp = op.dir) := by
        rintro ⟨hh1, hh2⟩
        have h1 := nbr_nbr hrL e
        rw [hh1, hh2] at h1
        have he : e = op.dir.opp := by
          have hco := congrArg Dir.opp hh2
          rwa [Dir.opp_opp] at hco
        exact hA ⟨h1.symm, he⟩
      rw [if_neg hP, if_neg hQ, if_neg hA, if_neg hB]
      exact hc r hrL e hne

theorem applyOps_noPalin {L L' : Lattice} {ops : List PaintOp}
    (h : applyOps L ops = some L') (hn : noPalin L) : noPalin L' := by
  induction ops generalizing L with
  | nil => cases h; exact hn
  | cons op ops ih =>
    unfold applyOps at h
    cases hop : applyOp L op with
    | none => rw [hop] at h; cases h
    | some L1 =>
      rw [hop] at h
      exact ih h (applyOp_noPalin hop hn)

theorem applyOps_compOk {L L' : Lattice} {ops : List PaintOp}
    (h : applyOps L ops = some L') (hc : compOk L) : compOk L' := by
  induction ops generalizing L with
  | nil => cases h; exact hc
  | cons op ops ih =>
    unfold applyOps at h
    cases hop : applyOp L op with
    | none => rw [hop] at h; cases h
    | some L1 =>
      rw [hop] at h
      exact ih h (applyOp_compOk hop hc)

theorem mkLattice_noPalin (nx ny nz : ℕ) (mat : Pos → ℕ) :
    noPalin (mkLattice nx ny nz mat) := by
  intro p _ d e h1
  exact absurd rfl h1

theorem mkLattice_compOk (nx ny nz : ℕ) (mat : Pos → ℕ) :
    compOk (mkLattice nx ny nz mat) := by
  intro p _ d h1
  exact absurd rfl h1

/-- Modelled from the spec: the `1×1×1` single-material end-to-end scenario.
The unit cell holds one voxel of material `1`, self-adjacent in every
direction through the periodic tiling. -/
def lattice1x1 : Lattice := mkLattice 1 1 1 (fun _ => 1)

/-- Modelled from the spec: the painting run on the single-voxel unit cell.
Phase 1 paints the `+x` self-bond with the fresh structural color `1` and the
self-symmetry closure copies the same single structural color onto the
remaining bond pairs, yielding one distinct color in all six slots. -/
def ops1x1 : List PaintOp :=
  [⟨(0, 0, 0), .px, 1⟩, ⟨(0, 0, 0), .py, 1⟩, ⟨(0, 0, 0), .pz, 1⟩]

/-- The painted single-voxel lattice. -/
def painted1x1 : Lattice := (applyOps lattice1x1 ops1x1).getD lattice1x1

theorem painted1x1_run : applyOps lattice1x1 ops1x1 = some painted1x1 := rfl

theorem painted1x1_fullyPainted : fullyPainted painted1x1 := by
  intro p hp d
  obtain ⟨x, y, z⟩ := p
  obtain ⟨h1, h2, h3⟩ := hp
  have e1 : painted1x1.nx = 1 := rfl
  have e2 : painted1x1.ny = 1 := rfl
  have e3 : painted1x1.nz = 1 := rfl
  rw [e1] at h1
  rw [e2] at h2
  rw [e3] at h3
  have h1' : x < 1 := h1
  have h2' : y < 1 := h2
  have h3' : z < 1 := h3
  have hx : x = 0 := by omega
  have hy : y = 0 := by omega
  have hz : z = 0 := by omega
  subst hx; subst hy; subst hz
  cases d <;> decide

/-- C2: for every voxel, at every point during and after painting, the set of
colors across its six bond slots never contains both `c` and `-c` for any
nonzero `c`.  Every state reachable from a freshly built lattice through any
sequence of guarded paint operations — in particular every intermediate state
of a painting run, since each is reached by a prefix of the run's operations —
satisfies the no-palindromes invariant. -/
theorem claim_c2_no_palindromes (nx ny nz : ℕ) (mat : Pos → ℕ)
    (ops : List PaintOp) (L' : Lattice)
    (h : applyOps (mkLattice nx ny nz mat) ops = some L') : noPalin L' :=
  applyOps_noPalin h (mkLattice_noPalin nx ny nz mat)

/-- Witness for C2: the painted single-voxel lattice is a successful painting
run and satisfies the no-palindromes invariant. -/
theorem claim_c2_no_palindromes_witness :
    applyOps (mkLattice 1 1 1 (fun _ => 1)) ops1x1 = some painted1x1 ∧
      noPalin painted1x1 :=
  ⟨painted1x1_run, claim_c2_no_palindromes 1 1 1 (fun _ => 1) ops1x1 painted1x1
    painted1x1_run⟩

/-- C1, amended: in every lattice produced by the painting model — in
particular every fully painted one — a slot holding a nonzero color `c` has
its adjacent opposite-direction slot (adjacency modulo the periodic unit
cell) holding exactly `-c` when the two voxels' materials differ
(complementary bond), and exactly `c` when the materials coincide
(structural bond). -/
theorem claim_c1_amended_complementarity (nx ny nz : ℕ) (mat : Pos → ℕ)
    (ops : List PaintOp) (L' : Lattice)
    (h : applyOps (mkLattice nx ny nz mat) ops = some L') : compOk L' :=
  applyOps_compOk h (mkLattice_compOk nx ny nz mat)

/-- Witness for the amended C1: on the painted single-voxel lattice the
complementarity-with-structural-exception invariant holds, and concretely the
`+x` slot holding `1` has its partner slot holding `1` (a same-material
bond). -/
theorem claim_c1_amended_complementarity_witness :
    applyOps (mkLattice 1 1 1 (fun _ => 1)) ops1x1 = some painted1x1 ∧
      compOk painted1x1 ∧
      painted1x1.color (nbr painted1x1 (0, 0, 0) Dir.px) Dir.px.opp = 1 :=
  ⟨painted1x1_run,
    claim_c1_amended_complementarity 1 1 1 (fun _ => 1) ops1x1 painted1x1
      painted1x1_run,
    by decide⟩

/-- C1 as stated is false on the code's own single-voxel scenario: the painted
`1×1×1` lattice is fully painted, its voxel's `+x` slot holds the nonzero
structural color `1`, yet the adjacent voxel's `-x` slot holds `1` and not
`-1` — a structural (same-material) bond carries the same positive color on
both directions rather than a complementary pair. -/
theorem claim_c1_counterexample :
    applyOps lattice1x1 ops1x1 = some painted1x1 ∧
      fullyPainted painted1x1 ∧
      validPos painted1x1 (0, 0, 0) ∧
      painted1x1.color (0, 0, 0) Dir.px ≠ 0 ∧
      painted1x1.color (nbr painted1x1 (0, 0, 0) Dir.px) Dir.px.opp ≠
        -(painted1x1.color (0, 0, 0) Dir.px) ∧
      ¬ strictComplementarity painted1x1 :=
  ⟨painted1x1_run, painted1x1_fullyPainted, by decide, by decide, by decide,
    fun hsc =>
      absurd (hsc (0, 0, 0) (by decide) Dir.px (by decide)) (by decide)⟩

/-- One row of the final per-voxel report (`Lattice.final_df`): voxel id,
material label, position, and the six signed bond colors in canonical
direction order `(+x, -x, +y, -y, +z, -z)`. -/
structure FinalRow where
  vid : ℕ
  mat : ℕ
  pos : Pos
  colors : List ℤ
deriving DecidableEq

/-- The final report recorded in `notebooks/algorithm.ipynb` as the output of
`lattice.final_df()` on a `2×2×2` example: eight rows, one per grid position,
four of which carry the material label `0`. -/
def finalDfExample : List FinalRow :=
  [⟨0, 1, (0, 1, 1), [1, 1, 1, 1, 1, 1]⟩,
   ⟨1, 0, (1, 1, 1), [-1, -1, 2, 2, 2, 2]⟩,
   ⟨2, 0, (0, 0, 1), [2, 2, -1, -1, 2, 2]⟩,
   ⟨3, 2, (1, 0, 1), [-2, -2, -2, -2, 3, 3]⟩,
   ⟨4, 0, (0, 1, 0), [2, 2, 2, 2, -1, -1]⟩,
   ⟨5, 2, (1, 1, 0), [-2, -2, 3, 3, -2, -2]⟩,
   ⟨6, 2, (0, 0, 0), [3, 3, -2, -2, -2, -2]⟩,
   ⟨7, 3, (1, 0, 0), [-3, -3, -3, -3, -3, -3]⟩]

/-- C3 as stated is false on the repository's own recorded output: the final
per-voxel report displayed in the notebook contains rows whose material label
is `0` (e.g. voxel id `1`), so the report does not consist exactly of the
voxels with nonzero material, and positions with material `0` are
materialized as voxels. -/
theorem claim_c3_counterexample :
    ¬ (∀ row ∈ finalDfExample, row.mat ≠ 0) := by decide

/-- C3, amended: every grid position of the unit cell is materialized as a
voxel and the final report contains exactly one row per grid position,
positions with material label `0` included.  Verified on the notebook's
recorded `final_df` output: one row for each of the eight positions of the
`2×2×2` cell, with distinct ids `0..7`, and material-0 rows present. -/
theorem claim_c3_amended_report_covers_grid :
    (∀ x < 2, ∀ y < 2, ∀ z < 2,
      finalDfExample.countP (fun row => row.pos = ((x, y, z) : Pos)) = 1) ∧
    finalDfExample.length = 8 ∧
    (finalDfExample.map (fun row => row.vid)) = [0, 1, 2, 3, 4, 5, 6, 7] ∧
    (∃ row ∈ finalDfExample, row.mat = 0) := by decide

/-- Classification of a pair of bond colorings or of two voxels' six-slot
colorings. -/
inductive Rel where
  | equal | loose | negation | notEqual
deriving DecidableEq, Repr

/-- Modelled from the spec: a bond as seen by the relation calculus
(`algorithm/symmetry`, absent from the sources): its signed color and
whether it is a complementary-type (cross-material) bond, as opposed to a
structural (same-material) one. -/
structure BondC where
  color : ℤ
  comp : Bool
deriving DecidableEq

/-- Modelled from the spec: the bond-level relation.  `equal` iff the colors
coincide; otherwise `loose` if either side is unpainted; otherwise `negation`
if the colors are exact negatives and both bonds are complementary-type;
otherwise `not-equal` (including the contradictory case of negated colors on
structural bonds). -/
def bondRel (b1 b2 : BondC) : Rel :=
  if b1.color = b2.color then .equal
  else if b1.color = 0 ∨ b2.color = 0 then .loose
  else if b1.color = -b2.color ∧ b1.comp ∧ b2.comp then .negation
  else .notEqual

/-- A voxel's six-direction bond signature, compared under the identity
direction correspondence. -/
def VoxelSig := Dir → BondC

/-- Modelled from the spec: the acceptable per-direction relation inside the
voxel-level `negation` aggregate — complementary directions must be
`negation` or `loose`, structural directions `equal` or `loose`. -/
def negDirOk (b1 b2 : BondC) : Prop :=
  if b1.comp ∧ b2.comp
    then bondRel b1 b2 = .negation ∨ bondRel b1 b2 = .loose
    else bondRel b1 b2 = .equal ∨ bondRel b1 b2 = .loose

instance (b1 b2 : BondC) : Decidable (negDirOk b1 b2) := by
  unfold negDirOk
  split <;> infer_instance

/-- Modelled from the spec: the voxel-level relation, aggregating the six
per-direction bond relations with the precedence `not-equal` dominating, then
`equal` preferred over `negation` over `loose`. -/
def voxelRel (v1 v2 : VoxelSig) : Rel :=
  if ∃ d, bondRel (v1 d) (v2 d) = .notEqual then .notEqual
  else if ∀ d, bondRel (v1 d) (v2 d) = .equal ∨ bondRel (v1 d) (v2 d) = .loose
    then .equal
  else if ∀ d, negDirOk (v1 d) (v2 d) then .negation
  else if ∀ d, bondRel (v1 d) (v2 d) = .loose then .loose
  else .notEqual

theorem bondRel_symm (b1 b2 : BondC) : bondRel b1 b2 = bondRel b2 b1 := by
  unfold bondRel
  by_cases h1 : b1.color = b2.color
  · rw [if_pos h1, if_pos h1.symm]
  · rw [if_neg h1, if_neg (show ¬ b2.color = b1.color from fun hh => h1 hh.symm)]
    by_cases h2 : b1.color = 0 ∨ b2.color = 0
    · rw [if_pos h2, if_pos (show b2.color = 0 ∨ b1.color = 0 from h2.symm)]
    · rw [if_neg h2,
        if_neg (show ¬ (b2.color = 0 ∨ b1.color = 0) from fun hh => h2 hh.symm)]
      by_cases h3 : b1.color = -b2.color ∧ b1.comp ∧ b2.comp
      · rw [if_pos h3,
          if_pos (show b2.color = -b1.color ∧ b2.comp ∧ b1.comp from
            ⟨by rw [h3.1, neg_neg], h3.2.2, h3.2.1⟩)]
      · rw [if_neg h3,
          if_neg (show ¬ (b2.color = -b1.color ∧ b2.comp ∧ b1.comp) from
            fun hh => h3 ⟨by rw [hh.1, neg_neg], hh.2.2, hh.2.1⟩)]

theorem negDirOk_symm (b1 b2 : BondC) : negDirOk b1 b2 ↔ negDirOk b2 b1 := by
  unfold negDirOk
  by_cases hc : b1.comp ∧ b2.comp
  · rw [if_pos hc, if_pos (show b2.comp ∧ b1.comp from ⟨hc.2, hc.1⟩),
      bondRel_symm b1 b2]
  · rw [if_neg hc,
      if_neg (show ¬ (b2.comp ∧ b1.comp) from fun hh => hc ⟨hh.2, hh.1⟩),
      bondRel_symm b1 b2]

theorem voxelRel_symm (v1 v2 : VoxelSig) : voxelRel v1 v2 = voxelRel v2 v1 := by
  unfold voxelRel
  have hne : (∃ d, bondRel (v1 d) (v2 d) = .notEqual) ↔
      (∃ d, bondRel (v2 d) (v1 d) = .notEqual) :=
    exists_congr (fun d => by rw [bondRel_symm (v1 d) (v2 d)])
  have heq : (∀ d, bondRel (v1 d) (v2 d) = .equal ∨
      bondRel (v1 d) (v2 d) = .loose) ↔
      (∀ d, bondRel (v2 d) (v1 d) = .equal ∨ bondRel (v2 d) (v1 d) = .loose) :=
    forall_congr' (fun d => by rw [bondRel_symm (v1 d) (v2 d)])
  have hng : (∀ d, negDirOk (v1 d) (v2 d)) ↔ (∀ d, negDirOk (v2 d) (v1 d)) :=
    forall_congr' (fun d => negDirOk_symm (v1 d) (v2 d))
  have hlo : (∀ d, bondRel (v1 d) (v2 d) = .loose) ↔
      (∀ d, bondRel (v2 d) (v1 d) = .loose) :=
    forall_congr' (fun d => by rw [bondRel_symm (v1 d) (v2 d)])
  simp only [hne, heq, hng, hlo]

/-- C5: the bond-level and voxel-level relation classifications are total and
symmetric — every pair receives exactly one of the four relations, the same
one in either order — and they follow the documented precedence: `not-equal`
dominates, otherwise `equal` is preferred over `negation` over `loose`. -/
theorem claim_c5_relations_total_symmetric :
    (∀ b1 b2 : BondC, bondRel b1 b2 = bondRel b2 b1) ∧
    (∀ v1 v2 : VoxelSig, voxelRel v1 v2 = voxelRel v2 v1) ∧
    (∀ b1 b2 : BondC, bondRel b1 b2 = .equal ∨ bondRel b1 b2 = .loose ∨
      bondRel b1 b2 = .negation ∨ bondRel b1 b2 = .notEqual) ∧
    (∀ v1 v2 : VoxelSig, voxelRel v1 v2 = .equal ∨ voxelRel v1 v2 = .loose ∨
      voxelRel v1 v2 = .negation ∨ voxelRel v1 v2 = .notEqual) ∧
    (∀ v1 v2 : VoxelSig, (∃ d, bondRel (v1 d) (v2 d) = .notEqual) →
      voxelRel v1 v2 = .notEqual) ∧
    (∀ v1 v2 : VoxelSig, ¬ (∃ d, bondRel (v1 d) (v2 d) = .notEqual) →
      (∀ d, bondRel (v1 d) (v2 d) = .equal ∨ bondRel (v1 d) (v2 d) = .loose) →
      voxelRel v1 v2 = .equal) ∧
    (∀ v1 v2 : VoxelSig, ¬ (∃ d, bondRel (v1 d) (v2 d) = .notEqual) →
      ¬ (∀ d, bondRel (v1 d) (v2 d) = .equal ∨ bondRel (v1 d) (v2 d) = .loose) →
      (∀ d, negDirOk (v1 d) (v2 d)) → voxelRel v1 v2 = .negation) := by
  refine ⟨bondRel_symm, voxelRel_symm, ?_, ?_, ?_, ?_, ?_⟩
  · intro b1 b2
    rcases hb : bondRel b1 b2 with _ | _ | _ | _
    · exact Or.inl rfl
    · exact Or.inr (Or.inl rfl)
    · exact Or.inr (Or.inr (Or.inl rfl))
    · exact Or.inr (Or.inr (Or.inr rfl))
  · intro v1 v2
    rcases hv : voxelRel v1 v2 with _ | _ | _ | _
    · exact Or.inl rfl
    · exact Or.inr (Or.inl rfl)
    · exact Or.inr (Or.inr (Or.inl rfl))
    · exact Or.inr (Or.inr (Or.inr rfl))
  · intro v1 v2 h
    unfold voxelRel
    rw [if_pos h]
  · intro v1 v2 h1 h2
    unfold voxelRel
    rw [if_neg h1, if_pos h2]
  · intro v1 v2 h1 h2 h3
    unfold voxelRel
    rw [if_neg h1, if_neg h2, if_pos h3]

/-- Witness for C5: the theorem applied to concrete bond signatures — two
all-complementary signatures with clashing colors are classified `not-equal`,
and the `equal`-over-`negation` precedence fires on all-unpainted
signatures. -/
theorem claim_c5_relations_total_symmetric_witness :
    (∃ d, bondRel ((fun _ => ⟨1, true⟩ : VoxelSig) d)
      ((fun _ => ⟨2, true⟩ : VoxelSig) d) = .notEqual) ∧
    voxelRel (fun _ => ⟨1, true⟩) (fun _ => ⟨2, true⟩) = .notEqual ∧
    voxelRel (fun _ => ⟨0, true⟩) (fun _ => ⟨0, true⟩) = .equal :=
  ⟨by decide,
    claim_c5_relations_total_symmetric.2.2.2.2.1
      (fun _ => ⟨1, true⟩) (fun _ => ⟨2, true⟩) (by decide),
    claim_c5_relations_total_symmetric.2.2.2.2.2.1
      (fun _ => ⟨0, true⟩) (fun _ => ⟨0, true⟩) (by decide) (by decide)⟩

/-- An integer offset vector in the infinite tiling around a voxel. -/
abbrev Vec3 := ℤ × ℤ × ℤ

/-- A rigid rotation of the cube, represented by its integer matrix rows. -/
abbrev SymOp := Vec3 × Vec3 × Vec3

/-- Dot product of a matrix row with an offset vector. -/
def dotV (r v : Vec3) : ℤ := r.1 * v.1 + r.2.1 * v.2.1 + r.2.2 * v.2.2

/-- Apply a rotation to an offset vector. -/
def applySym (g : SymOp) (v : Vec3) : Vec3 :=
  (dotV g.1 v, dotV g.2.1 v, dotV g.2.2 v)

/-- The identity rotation (the pure translation operation). -/
def symId : SymOp := ((1, 0, 0), (0, 1, 0), (0, 0, 1))

/-- The transpose of a rotation matrix, turning its columns into rows. -/
def transposeV (b : SymOp) : SymOp :=
  ((b.1.1, b.2.1.1, b.2.2.1),
   (b.1.2.1, b.2.1.2.1, b.2.2.2.1),
   (b.1.2.2, b.2.1.2.2, b.2.2.2.2))

/-- Matrix product of two rotations. -/
def symMul (a b : SymOp) : SymOp :=
  ((dotV a.1 (transposeV b).1, dotV a.1 (transposeV b).2.1,
      dotV a.1 (transposeV b).2.2),
   (dotV a.2.1 (transposeV b).1, dotV a.2.1 (transposeV b).2.1,
      dotV a.2.1 (transposeV b).2.2),
   (dotV a.2.2 (transposeV b).1, dotV a.2.2 (transposeV b).2.1,
      dotV a.2.2 (transposeV b).2.2))

/-- The 90° rotation about the x axis. -/
def rotX : SymOp := ((1, 0, 0), (0, 0, -1), (0, 1, 0))

/-- The 90° rotation about the y axis. -/
def rotY : SymOp := ((0, 0, 1), (0, 1, 0), (-1, 0, 0))

/-- The 90° rotation about the z axis. -/
def rotZ : SymOp := ((0, -1, 0), (1, 0, 0), (0, 0, 1))

/-- Modelled from the spec: the 24 orientation-preserving rotations of the
cube, generated as a spin about `z` composed with one of six axis
aligners. -/
def rotationGroup : List SymOp :=
  ([symId, rotZ, symMul rotZ rotZ, symMul rotZ (symMul rotZ rotZ)].map
    (fun s =>
      [symMul s symId, symMul s rotX, symMul s (symMul rotX rotX),
       symMul s (symMul rotX (symMul rotX rotX)), symMul s rotY,
       symMul s (symMul rotY (symMul rotY rotY))])).flatten

theorem symMul_apply (a b : SymOp) (v : Vec3) :
    applySym (symMul a b) v = applySym a (applySym b v) := by
  obtain ⟨⟨a11, a12, a13⟩, ⟨a21, a22, a23⟩, ⟨a31, a32, a33⟩⟩ := a
  obtain ⟨⟨b11, b12, b13⟩, ⟨b21, b22, b23⟩, ⟨b31, b32, b33⟩⟩ := b
  obtain ⟨x, y, z⟩ := v
  simp only [applySym, symMul, dotV, transposeV, Prod.mk.injEq]
  refine ⟨by ring, by ring, by ring⟩

theorem applySym_id (v : Vec3) : applySym symId v = v := by
  obtain ⟨x, y, z⟩ := v
  simp only [applySym, symId, dotV, Prod.mk.injEq]
  refine ⟨by ring, by ring, by ring⟩

theorem applySym_zero (g : SymOp) : applySym g ((0, 0, 0) : Vec3) = (0, 0, 0) := by
  obtain ⟨⟨a11, a12, a13⟩, ⟨a21, a22, a23⟩, ⟨a31, a32, a33⟩⟩ := g
  simp only [applySym, dotV, Prod.mk.injEq]
  refine ⟨by ring, by ring, by ring⟩

theorem symId_mem_rotationGroup : symId ∈ rotationGroup := by decide

/-- The coordinates `-rad .. rad` along one axis of the surroundings cube. -/
def axisRange (rad : ℕ) : List ℤ :=
  (List.range (2 * rad + 1)).map (fun i => (i : ℤ) - rad)

/-- The compared offsets of a voxel's surroundings: the origin (the voxel's
own cargo) together with every offset of the cube of radius `rad`. -/
def offsets (rad : ℕ) : List Vec3 :=
  ((0, 0, 0) : Vec3) ::
    (axisRange rad).flatMap (fun a =>
      (axisRange rad).flatMap (fun b =>
        (axisRange rad).map (fun c => (a, b, c))))

theorem zero_mem_offsets (rad : ℕ) : ((0, 0, 0) : Vec3) ∈ offsets rad :=
  List.mem_cons_self _ _

/-- The position of a voxel as an offset vector from the origin. -/
def posVec (p : Pos) : Vec3 := ((p.1 : ℤ), (p.2.1 : ℤ), (p.2.2 : ℤ))

/-- The material label of the infinite periodic tiling at an arbitrary
integer point: the unit cell repeats along all three axes. -/
def matZ (L : Lattice) (v : Vec3) : ℕ :=
  L.material ((v.1 % (L.nx : ℤ)).toNat, (v.2.1 % (L.ny : ℤ)).toNat,
    (v.2.2 % (L.nz : ℤ)).toNat)

theorem matZ_posVec {L : Lattice} {p : Pos} (hp : validPos L p) :
    matZ L (posVec p) = L.material p := by
  obtain ⟨x, y, z⟩ := p
  obtain ⟨h1, h2, h3⟩ := hp
  have h1' : x < L.nx := h1
  have h2' : y < L.ny := h2
  have h3' : z < L.nz := h3
  unfold matZ posVec
  have e1 : ((x : ℤ) % (L.nx : ℤ)).toNat = x := by
    rw [Int.emod_eq_of_lt (by omega) (by exact_mod_cast h1')]
    exact Int.toNat_natCast x
  have e2 : ((y : ℤ) % (L.ny : ℤ)).toNat = y := by
    rw [Int.emod_eq_of_lt (by omega) (by exact_mod_cast h2')]
    exact Int.toNat_natCast y
  have e3 : ((z : ℤ) % (L.nz : ℤ)).toNat = z := by
    rw [Int.emod_eq_of_lt (by omega) (by exact_mod_cast h3')]
    exact Int.toNat_natCast z
  rw [e1, e2, e3]

theorem vec_add_zero (v : Vec3) : v + ((0, 0, 0) : Vec3) = v := by
  obtain ⟨x, y, z⟩ := v
  simp only [Prod.mk_add_mk, add_zero]

/-- Modelled from the spec: the surroundings-match test for a symmetry
operation — transforming `a`'s surroundings by `g` and re-centering on `b`
matches the material labels of the periodic tiling at every compared
offset. -/
def matchSym (L : Lattice) (rad : ℕ) (a b : Pos) (g : SymOp) : Prop :=
  ∀ o ∈ offsets rad, matZ L (posVec b + o) = matZ L (posVec a + applySym g o)

instance (L : Lattice) (rad : ℕ) (a b : Pos) (g : SymOp) :
    Decidable (matchSym L rad a b g) := by
  unfold matchSym; infer_instance

/-- Modelled from the spec: `SymmetryDf.symlist(v1, v2)` — the list of all
rotation-group operations under which the two voxels' surroundings
coincide. -/
def symlist (L : Lattice) (rad : ℕ) (a b : Pos) : List SymOp :=
  rotationGroup.filter (fun g => decide (matchSym L rad a b g))

/-- C6: for every voxel `v`, the self-symmetry query `symlist(v, v)` contains
the identity/translation operation (hence is nonempty), and for every ordered
pair of voxels with differing material labels `symlist` is empty. -/
theorem claim_c6_symlist_self_and_materials :
    (∀ (L : Lattice) (rad : ℕ) (p : Pos), symId ∈ symlist L rad p p) ∧
    (∀ (L : Lattice) (rad : ℕ) (p q : Pos), validPos L p → validPos L q →
      L.material p ≠ L.material q → symlist L rad p q = []) := by
  constructor
  · intro L rad p
    rw [symlist, List.mem_filter]
    refine ⟨symId_mem_rotationGroup, ?_⟩
    rw [decide_eq_true_eq]
    intro o _
    rw [applySym_id]
  · intro L rad p q hp hq hm
    rw [symlist, List.filter_eq_nil_iff]
    intro g _ hg
    rw [decide_eq_true_eq] at hg
    have h0 := hg ((0, 0, 0) : Vec3) (zero_mem_offsets rad)
    rw [applySym_zero, vec_add_zero, vec_add_zero, matZ_posVec hp,
      matZ_posVec hq] at h0
    exact hm h0.symm

/-- Witness for C6 on a concrete two-voxel lattice with distinct materials:
the self-symmetry list of the first voxel contains the identity, and the
cross-material symmetry list is empty. -/
theorem claim_c6_symlist_witness :
    symId ∈ symlist (mkLattice 2 1 1 (fun p => if p.1 = 0 then 1 else 2))
      1 (0, 0, 0) (0, 0, 0) ∧
    symlist (mkLattice 2 1 1 (fun p => if p.1 = 0 then 1 else 2))
      1 (0, 0, 0) (1, 0, 0) = [] :=
  ⟨claim_c6_symlist_self_and_materials.1
      (mkLattice 2 1 1 (fun p => if p.1 = 0 then 1 else 2)) 1 (0, 0, 0),
    claim_c6_symlist_self_and_materials.2
      (mkLattice 2 1 1 (fun p => if p.1 = 0 then 1 else 2)) 1 (0, 0, 0)
      (1, 0, 0) (by decide) (by decide) (by decide)⟩

/-- Modelled from the spec: the Mesovoxel bookkeeping — the sets of
structural and complementary representative voxel ids, plus the mesoparent
map sending a voxel id to its representative. -/
structure Mesovoxel where
  structural : Finset ℕ
  complementary : Finset ℕ
  mesoparent : ℕ → Option ℕ

/-- Membership of a voxel id in a representative's maplist. -/
def inMaplist (M : Mesovoxel) (r v : ℕ) : Prop := M.mesoparent v = some r

/-- Modelled from the spec: the Mesovoxel updates the Painter performs —
registering a new structural representative, registering a complementary
representative (the negation partner of a structural one), and folding a
voxel into an existing representative's maplist. -/
inductive MesoOp where
  | addStructural (r : ℕ)
  | addComplementary (r : ℕ)
  | mapTo (v r : ℕ)

/-- Apply one Mesovoxel update; a representative may only be registered once
and a voxel may only be mapped to a registered representative. -/
def applyMesoOp (M : Mesovoxel) : MesoOp → Option Mesovoxel
  | .addStructural r =>
    if r ∈ M.structural ∪ M.complementary then none
    else some ⟨insert r M.structural, M.complementary,
      fun v => if v = r then some r else M.mesoparent v⟩
  | .addComplementary r =>
    if r ∈ M.structural ∪ M.complementary then none
    else some ⟨M.structural, insert r M.complementary,
      fun v => if v = r then some r else M.mesoparent v⟩
  | .mapTo v r =>
    if r ∈ M.structural ∪ M.complementary then
      some ⟨M.structural, M.complementary,
        fun w => if w = v then some r else M.mesoparent w⟩
    else none

/-- Run a sequence of Mesovoxel updates. -/
def applyMesoOps (M : Mesovoxel) : List MesoOp → Option Mesovoxel
  | [] => some M
  | op :: ops =>
    match applyMesoOp M op with
    | some M' => applyMesoOps M' ops
    | none => none

/-- The initial, empty Mesovoxel. -/
def emptyMeso : Mesovoxel := ⟨∅, ∅, fun _ => none⟩

/-- Structural and complementary representatives are disjoint, and every
assigned mesoparent is a registered representative. -/
def mesoInv (M : Mesovoxel) : Prop :=
  Disjoint M.structural M.complementary ∧
    ∀ v r, M.mesoparent v = some r → r ∈ M.structural ∪ M.complementary

theorem applyMesoOp_inv {M M' : Mesovoxel} {op : MesoOp}
    (h : applyMesoOp M op = some M') (hi : mesoInv M) : mesoInv M' := by
  obtain ⟨hd, hrep⟩ := hi
  cases op with
  | addStructural r =>
    simp only [applyMesoOp] at h
    split at h
    next hr => cases h
    next hr =>
      cases h
      refine ⟨?_, ?_⟩
      · show Disjoint (insert r M.structural) M.complementary
        rw [Finset.disjoint_insert_left]
        exact ⟨fun hh => hr (Finset.mem_union_right _ hh), hd⟩
      · intro v s hs
        have hs' : (if v = r then some r else M.mesoparent v) = some s := hs
        show s ∈ insert r M.structural ∪ M.complementary
        by_cases hv : v = r
        · rw [if_pos hv] at hs'
          cases hs'
          exact Finset.mem_union_left _ (Finset.mem_insert_self r _)
        · rw [if_neg hv] at hs'
          rcases Finset.mem_union.mp (hrep v s hs') with hh | hh
          · exact Finset.mem_union_left _ (Finset.mem_insert_of_mem hh)
          · exact Finset.mem_union_right _ hh
  | addComplementary r =>
    simp only [applyMesoOp] at h
    split at h
    next hr => cases h
    next hr =>
      cases h
      refine ⟨?_, ?_⟩
      · show Disjoint M.structural (insert r M.complementary)
        rw [Finset.disjoint_insert_right]
        exact ⟨fun hh => hr (Finset.mem_union_left _ hh), hd⟩
      · intro v s hs
        have hs' : (if v = r then some r else M.mesoparent v) = some s := hs
        show s ∈ M.structural ∪ insert r M.complementary
        by_cases hv : v = r
        · rw [if_pos hv] at hs'
          cases hs'
          exact Finset.mem_union_right _ (Finset.mem_insert_self r _)
        · rw [if_neg hv] at hs'
          rcases Finset.mem_union.mp (hrep v s hs') with hh | hh
          · exact Finset.mem_union_left _ hh
          · exact Finset.mem_union_right _ (Finset.mem_insert_of_mem hh)
  | mapTo v r =>
    simp only [applyMesoOp] at h
    split at h
    next hr =>
      cases h
      refine ⟨hd, ?_⟩
      intro w s hs
      have hs' : (if w = v then some r else M.mesoparent w) = some s := hs
      show s ∈ M.structural ∪ M.complementary
      by_cases hw : w = v
      · rw [if_pos hw] at hs'
        cases hs'
        exact hr
      · rw [if_neg hw] at hs'
        exact hrep w s hs'
    next hr => cases h

theorem applyMesoOps_inv {M M' : Mesovoxel} {ops : List MesoOp}
    (h : applyMesoOps M ops = some M') (hi : mesoInv M) : mesoInv M' := by
  induction ops generalizing M with
  | nil => cases h; exact hi
  | cons op ops ih =>
    unfold applyMesoOps at h
    cases hop : applyMesoOp M op with
    | none => rw [hop] at h; cases h
    | some M1 =>
      rw [hop] at h
      exact ih h (applyMesoOp_inv hop hi)

theorem emptyMeso_inv : mesoInv emptyMeso :=
  ⟨Finset.disjoint_empty_left _, fun _ _ h => by cases h⟩

/-- C7: for every Mesovoxel state built by the Painter's updates, the
structural and complementary representative sets are disjoint, and — once
painting completes, i.e. every occupied voxel id has been assigned a
mesoparent — every occupied voxel id lies in exactly one `maplist` of
exactly one registered representative. -/
theorem claim_c7_mesovoxel_partition (ops : List MesoOp) (M' : Mesovoxel)
    (h : applyMesoOps emptyMeso ops = some M') (occupied : Finset ℕ)
    (hocc : ∀ v ∈ occupied, (M'.mesoparent v).isSome) :
    Disjoint M'.structural M'.complementary ∧
      ∀ v ∈ occupied, ∃! r,
        r ∈ M'.structural ∪ M'.complementary ∧ inMaplist M' r v := by
  obtain ⟨hd, hrep⟩ := applyMesoOps_inv h emptyMeso_inv
  refine ⟨hd, ?_⟩
  intro v hv
  obtain ⟨r, hr⟩ := Option.isSome_iff_exists.mp (hocc v hv)
  refine ⟨r, ⟨hrep v r hr, hr⟩, ?_⟩
  rintro s ⟨_, hs⟩
  rw [inMaplist, hr] at hs
  exact (Option.some.inj hs).symm

/-- A concrete Mesovoxel run: one structural representative `0`, its
complementary partner `1`, and voxel `2` folded into `0`'s maplist. -/
def mesoExample : Mesovoxel :=
  (applyMesoOps emptyMeso
    [.addStructural 0, .addComplementary 1, .mapTo 2 0]).getD emptyMeso

/-- Witness for C7: on the concrete run the representative sets are disjoint
and each of the voxel ids `0`, `1`, `2` lies in exactly one maplist. -/
theorem claim_c7_mesovoxel_partition_witness :
    Disjoint mesoExample.structural mesoExample.complementary ∧
      ∀ v ∈ ({0, 1, 2} : Finset ℕ), ∃! r,
        r ∈ mesoExample.structural ∪ mesoExample.complementary ∧
          inMaplist mesoExample r v :=
  claim_c7_mesovoxel_partition
    [.addStructural 0, .addComplementary 1, .mapTo 2 0] mesoExample rfl
    ({0, 1, 2} : Finset ℕ) (by decide)

/-- All positions of the unit cell, in ascending lexicographic order. -/
def allPositions (L : Lattice) : List Pos :=
  (List.range L.nx).flatMap (fun x =>
    (List.range L.ny).flatMap (fun y =>
      (List.range L.nz).map (fun z => (x, y, z))))

/-- The six directions in canonical order. -/
def dirList : List Dir := [.px, .mx, .py, .my, .pz, .mz]

/-- All bond slots of the unit cell. -/
def allSlots (L : Lattice) : List (Pos × Dir) :=
  (allPositions L).flatMap (fun p => dirList.map (fun d => (p, d)))

theorem mem_allPositions {L : Lattice} {p : Pos} :
    p ∈ allPositions L ↔ validPos L p := by
  obtain ⟨x, y, z⟩ := p
  unfold allPositions validPos
  simp only [List.mem_flatMap, List.mem_range, List.mem_map, Prod.mk.injEq]
  constructor
  · rintro ⟨a, ha, b, hb, c, hc, rfl, rfl, rfl⟩
    exact ⟨ha, hb, hc⟩
  · rintro ⟨h1, h2, h3⟩
    exact ⟨x, h1, y, h2, z, h3, rfl, rfl, rfl⟩

theorem mem_dirList (d : Dir) : d ∈ dirList := by cases d <;> decide

theorem mem_allSlots {L : Lattice} {p : Pos} {d : Dir} :
    (p, d) ∈ allSlots L ↔ validPos L p := by
  unfold allSlots
  simp only [List.mem_flatMap, List.mem_map, Prod.mk.injEq]
  constructor
  · rintro ⟨q, hq, e, _, rfl, rfl⟩
    exact mem_allPositions.mp hq
  · intro hp
    exact ⟨p, mem_allPositions.mpr hp, d, mem_dirList d, rfl, rfl⟩

/-- The largest absolute color value used anywhere in the lattice. -/
def maxAbsColor (L : Lattice) : ℕ :=
  ((allSlots L).map (fun s => (L.color s.1 s.2).natAbs)).foldr max 0

theorem le_foldr_max (l : List ℕ) (a : ℕ) : ∀ x ∈ l, x ≤ l.foldr max a := by
  induction l with
  | nil => intro x hx; cases hx
  | cons b l ih =>
    intro x hx
    rcases List.mem_cons.mp hx with rfl | hx
    · exact le_max_left _ _
    · exact le_trans (ih x hx) (le_max_right _ _)

theorem natAbs_le_maxAbsColor {L : Lattice} {s : Pos × Dir}
    (hs : s ∈ allSlots L) : (L.color s.1 s.2).natAbs ≤ maxAbsColor L :=
  le_foldr_max _ 0 _ (List.mem_map.mpr ⟨s, hs, rfl⟩)

/-- A fresh unused positive color: one more than the largest absolute color
in use. -/
def freshColor (L : Lattice) : ℤ := (maxAbsColor L : ℤ) + 1

theorem freshColor_pos (L : Lattice) : 0 < freshColor L := by
  unfold freshColor
  have : (0 : ℤ) ≤ (maxAbsColor L : ℤ) := Int.natCast_nonneg _
  omega

theorem freshColor_unused {L : Lattice} {s : Pos × Dir} (hs : s ∈ allSlots L) :
    L.color s.1 s.2 ≠ freshColor L ∧ L.color s.1 s.2 ≠ -(freshColor L) := by
  have hle := natAbs_le_maxAbsColor hs
  have hfa : (freshColor L).natAbs = maxAbsColor L + 1 := by
    unfold freshColor
    omega
  constructor
  · intro hh
    rw [hh, hfa] at hle
    omega
  · intro hh
    have : (L.color s.1 s.2).natAbs = (freshColor L).natAbs := by
      rw [hh]
      exact Int.natAbs_neg _
    rw [this, hfa] at hle
    omega

/-- The set of distinct nonzero absolute color values used in the lattice. -/
def palette (L : Lattice) : Finset ℕ :=
  (((allSlots L).map (fun s => (L.color s.1 s.2).natAbs)).toFinset).erase 0

/-- The number of distinct nonzero `|color|` values used in the lattice — the
distinct-color summary statistic of the final report. -/
def distinctColorCount (L : Lattice) : ℕ := (palette L).card

theorem mem_palette {L : Lattice} {x : ℕ} :
    x ∈ palette L ↔ x ≠ 0 ∧ ∃ s ∈ allSlots L, (L.color s.1 s.2).natAbs = x := by
  unfold palette
  rw [Finset.mem_erase, List.mem_toFinset, List.mem_map]

theorem freshAbs_not_mem_palette (L : Lattice) :
    (freshColor L).natAbs ∉ palette L := by
  intro hmem
  obtain ⟨hne, s, hs, hx⟩ := mem_palette.mp hmem
  have hle := natAbs_le_maxAbsColor hs
  have hfa : (freshColor L).natAbs = maxAbsColor L + 1 := by
    unfold freshColor
    omega
  rw [← hx] at hfa
  omega

theorem partnerColor_of_same {L : Lattice} {p : Pos} {d : Dir} (c : ℤ)
    (hm : L.material p = L.material (nbr L p d)) :
    partnerColor L p d c = c := by
  unfold partnerColor
  rw [if_pos hm]

/-- Modelled from the spec: one Phase-1 structural painting step — paint the
unpainted bond pair between two adjacent same-material voxels with a fresh
unused positive color on both directions of the bond. -/
def paintStructuralBond (L : Lattice) (p : Pos) (d : Dir) : Option Lattice :=
  applyOp L ⟨p, d, freshColor L⟩

/-- C4: in Phase 1 structural painting, for every adjacent same-material pair
whose connecting bond pair is unpainted, the step succeeds and assigns the
same fresh positive color — one unused anywhere in the lattice before the
step — to both directions of the bond: the slot on the first voxel and the
opposite-direction partner slot on the neighbor. -/
theorem claim_c4_structural_fresh_color (L : Lattice) (p : Pos) (d : Dir)
    (hp : validPos L p) (hm : L.material p = L.material (nbr L p d))
    (hu1 : L.color p d = 0) (hu2 : L.color (nbr L p d) d.opp = 0) :
    ∃ L', paintStructuralBond L p d = some L' ∧
      L'.color p d = freshColor L ∧
      L'.color (nbr L p d) d.opp = freshColor L ∧
      0 < freshColor L ∧
      ∀ s ∈ allSlots L, L.color s.1 s.2 ≠ freshColor L := by
  have hpc : partnerColor L p d (freshColor L) = freshColor L :=
    partnerColor_of_same _ hm
  have hg : paintGuard L ⟨p, d, freshColor L⟩ := by
    refine ⟨(freshColor_pos L).ne', hp, hu1, hu2, ?_, ?_⟩
    · intro e
      exact (freshColor_unused (mem_allSlots.mpr hp)
        (s := (p, e))).2
    · intro e
      rw [hpc]
      exact (freshColor_unused (mem_allSlots.mpr (nbr_valid hp d))
        (s := (nbr L p d, e))).2
  refine ⟨setColor (setColor L p d (freshColor L))
      (nbr L p d) d.opp (partnerColor L p d (freshColor L)),
    ?_, ?_, ?_, freshColor_pos L, fun s hs => (freshColor_unused hs).1⟩
  · unfold paintStructuralBond applyOp
    rw [if_pos hg]
  · show (if p = nbr L p d ∧ d = d.opp then partnerColor L p d (freshColor L)
      else if p = p ∧ d = d then freshColor L else L.color p d) = freshColor L
    rw [if_neg (show ¬ (p = nbr L p d ∧ d = d.opp) from
        fun hh => Dir.opp_ne d hh.2.symm)]
    rw [if_pos (show p = p ∧ d = d from ⟨rfl, rfl⟩)]
  · show (if nbr L p d = nbr L p d ∧ d.opp = d.opp
        then partnerColor L p d (freshColor L)
      else if nbr L p d = p ∧ d.opp = d then freshColor L
      else L.color (nbr L p d) d.opp) = freshColor L
    rw [if_pos (show nbr L p d = nbr L p d ∧ d.opp = d.opp from ⟨rfl, rfl⟩)]
    exact hpc

/-- Witness for C4 on a two-voxel single-material lattice: painting the
unpainted `+x` bond of the first voxel succeeds with the fresh color on both
bond directions. -/
theorem claim_c4_structural_fresh_color_witness :
    ∃ L', paintStructuralBond (mkLattice 2 1 1 (fun _ => 5)) (0, 0, 0)
        Dir.px = some L' ∧
      L'.color (0, 0, 0) Dir.px =
        freshColor (mkLattice 2 1 1 (fun _ => 5)) ∧
      L'.color (nbr (mkLattice 2 1 1 (fun _ => 5)) (0, 0, 0) Dir.px)
          Dir.px.opp = freshColor (mkLattice 2 1 1 (fun _ => 5)) ∧
      0 < freshColor (mkLattice 2 1 1 (fun _ => 5)) ∧
      ∀ s ∈ allSlots (mkLattice 2 1 1 (fun _ => 5)),
        (mkLattice 2 1 1 (fun _ => 5)).color s.1 s.2 ≠
          freshColor (mkLattice 2 1 1 (fun _ => 5)) :=
  claim_c4_structural_fresh_color (mkLattice 2 1 1 (fun _ => 5)) (0, 0, 0)
    Dir.px (by decide) (by decide) (by decide) (by decide)

/-- Modelled from the spec: the representative bond slot whose color a slot
adopts under BF1 — the first slot, in canonical order, lying in the same
direction on a voxel with any detected symmetry to this slot's voxel.  When
no such slot exists the slot represents itself. -/
def bf1rep (L : Lattice) (rad : ℕ) (s : Pos × Dir) : Pos × Dir :=
  (((allSlots L).filter (fun t =>
    decide (symlist L rad t.1 s.1 ≠ []) && decide (t.2 = s.2))).head?).getD s

/-- Modelled from the spec: `BindingFlexibility.binding_flexibility_1`
(loosen) — return a new lattice in which every bond of a symmetry
equivalence class is repainted with the one unified color of the class
representative. -/
def binding_flexibility_1 (L : Lattice) (rad : ℕ) : Lattice :=
  { L with color := fun p d =>
      L.color (bf1rep L rad (p, d)).1 (bf1rep L rad (p, d)).2 }

theorem bf1rep_mem {L : Lattice} {rad : ℕ} {s : Pos × Dir}
    (hs : s ∈ allSlots L) : bf1rep L rad s ∈ allSlots L := by
  unfold bf1rep
  cases hh : (((allSlots L).filter (fun t =>
      decide (symlist L rad t.1 s.1 ≠ []) && decide (t.2 = s.2))).head?) with
  | none => exact hs
  | some t =>
    have ht : t ∈ (allSlots L).filter (fun t =>
        decide (symlist L rad t.1 s.1 ≠ []) && decide (t.2 = s.2)) :=
      List.mem_of_mem_head? (by rw [hh]; rfl)
    exact (List.mem_filter.mp ht).1

theorem palette_bf1_subset (L : Lattice) (rad : ℕ) :
    palette (binding_flexibility_1 L rad) ⊆ palette L := by
  intro x hx
  obtain ⟨hne, s, hs, hcol⟩ := mem_palette.mp hx
  have hs' : s ∈ allSlots L := hs
  have hrep : bf1rep L rad s ∈ allSlots L := bf1rep_mem hs'
  refine mem_palette.mpr ⟨hne, bf1rep L rad s, hrep, ?_⟩
  rw [← hcol]
  show (L.color (bf1rep L rad s).1 (bf1rep L rad s).2).natAbs =
    (L.color (bf1rep L rad (s.1, s.2)).1 (bf1rep L rad (s.1, s.2)).2).natAbs
  rfl

/-- C8: the BF1 (loosen) post-processor never increases the number of
distinct nonzero `|color|` values: every repainted bond adopts the existing
color of its class representative, so the output palette is a subset of the
input palette. -/
theorem claim_c8_bf1_monotone (L : Lattice) (rad : ℕ)
    (hfp : fullyPainted L) :
    distinctColorCount (binding_flexibility_1 L rad) ≤ distinctColorCount L :=
  Finset.card_le_card (palette_bf1_subset L rad)

/-- Witness for C8: the fully painted single-voxel lattice. -/
theorem claim_c8_bf1_monotone_witness :
    distinctColorCount (binding_flexibility_1 painted1x1 0) ≤
      distinctColorCount painted1x1 :=
  claim_c8_bf1_monotone painted1x1 0 painted1x1_fullyPainted

/-- The directions of a voxel carrying structural-type bond slots: slots
painted with the same nonzero color on both ends of the bond. -/
def structDirs (L : Lattice) (p : Pos) : Finset Dir :=
  Finset.univ.filter (fun d =>
    L.color p d ≠ 0 ∧ L.color p d = L.color (nbr L p d) d.opp)

/-- The number of structural-type bond slots of a voxel. -/
def structCount (L : Lattice) (p : Pos) : ℕ := (structDirs L p).card

/-- The voxel's structural-bond ratio: structural slots out of six. -/
def structRatio (L : Lattice) (p : Pos) : ℚ := (structCount L p : ℚ) / 6

theorem structCount_le_six (L : Lattice) (p : Pos) : structCount L p ≤ 6 := by
  rw [structCount, structDirs]
  exact le_trans (Finset.card_filter_le _ _) (by decide)

/-- Repaint one bond pair with a brand-new, globally unused positive color:
the selected slot receives the fresh color and its bonded partner the
negation, detaching the bond from its old structural color. -/
def repaintFresh (L : Lattice) (p : Pos) (d : Dir) : Lattice :=
  setColor (setColor L p d (freshColor L)) (nbr L p d) d.opp (-(freshColor L))

theorem repaintFresh_color (L : Lattice) (p : Pos) (d : Dir) (q : Pos) (e : Dir) :
    (repaintFresh L p d).color q e =
      if q = nbr L p d ∧ e = d.opp then -(freshColor L)
      else if q = p ∧ e = d then freshColor L
      else L.color q e := rfl

/-- The deterministic slot selection of BF3: the lowest direction index among
the voxel's structural slots. -/
def firstStructDir (L : Lattice) (p : Pos) : Option Dir :=
  dirList.find? (fun d =>
    decide (L.color p d ≠ 0 ∧ L.color p d = L.color (nbr L p d) d.opp))

/-- One BF3 repaint action on a voxel: repaint its first structural slot (and
that slot's bonded partner) with a brand-new color, or leave the lattice
unchanged when the voxel has no structural slot to repaint. -/
def bf3step (L : Lattice) (p : Pos) : Lattice :=
  match firstStructDir L p with
  | none => L
  | some d => repaintFresh L p d

theorem repaintFresh_count_ge (L : Lattice) (p : Pos) (d : Dir)
    (hp : validPos L p) (hc : L.color p d ≠ 0)
    (he : L.color p d = L.color (nbr L p d) d.opp) :
    distinctColorCount L ≤ distinctColorCount (repaintFresh L p d) := by
  have hsub : (palette L).erase (L.color p d).natAbs ⊆
      palette (repaintFresh L p d) := by
    intro x hx
    obtain ⟨hxc, hxmem⟩ := Finset.mem_erase.mp hx
    obtain ⟨hx0, s, hs, habs⟩ := mem_palette.mp hxmem
    have hsA : s ≠ ((p, d) : Pos × Dir) := by
      rintro rfl
      exact hxc habs.symm
    have hsB : s ≠ ((nbr L p d, d.opp) : Pos × Dir) := by
      rintro rfl
      apply hxc
      rw [← habs, ← he]
    refine mem_palette.mpr ⟨hx0, s, hs, ?_⟩
    rw [repaintFresh_color]
    rw [if_neg, if_neg]
    · exact habs
    · rintro ⟨h1, h2⟩
      apply hsA
      obtain ⟨s1, s2⟩ := s
      cases h1; cases h2; rfl
    · rintro ⟨h1, h2⟩
      apply hsB
      obtain ⟨s1, s2⟩ := s
      cases h1; cases h2; rfl
  have hfm : (freshColor L).natAbs ∈ palette (repaintFresh L p d) := by
    refine mem_palette.mpr ⟨?_, (p, d), mem_allSlots.mpr hp, ?_⟩
    · have := freshColor_pos L
      omega
    · show ((repaintFresh L p d).color p d).natAbs = _
      rw [repaintFresh_color]
      rw [if_neg (show ¬ (p = nbr L p d ∧ d = d.opp) from
        fun hh => Dir.opp_ne d hh.2.symm)]
      rw [if_pos (show p = p ∧ d = d from ⟨rfl, rfl⟩)]
  have hfn : (freshColor L).natAbs ∉ palette L := freshAbs_not_mem_palette L
  have hins : insert (freshColor L).natAbs
      ((palette L).erase (L.color p d).natAbs) ⊆
      palette (repaintFresh L p d) :=
    Finset.insert_subset_iff.mpr ⟨hfm, hsub⟩
  have hcard := Finset.card_le_card hins
  rw [Finset.card_insert_of_not_mem
    (fun hh => hfn (Finset.mem_of_mem_erase hh))] at hcard
  by_cases hcm : (L.color p d).natAbs ∈ palette L
  · have h1 := Finset.card_erase_of_mem hcm
    have h2 : 1 ≤ (palette L).card := Finset.card_pos.mpr ⟨_, hcm⟩
    unfold distinctColorCount
    omega
  · rw [Finset.erase_eq_of_not_mem hcm] at hcard
    unfold distinctColorCount
    omega

theorem repaintFresh_structDirs_subset (L : Lattice) (p : Pos) (d : Dir)
    (q : Pos) (hp : validPos L p) (hq : validPos L q) :
    structDirs (repaintFresh L p d) q ⊆ structDirs L q := by
  intro e he
  rw [structDirs, Finset.mem_filter] at he
  obtain ⟨-, hne, heq⟩ := he
  have hne' : (repaintFresh L p d).color q e ≠ 0 := hne
  have heq' : (repaintFresh L p d).color q e =
      (repaintFresh L p d).color (nbr L q e) e.opp := heq
  by_cases hA : q = nbr L p d ∧ e = d.opp
  · exfalso
    obtain ⟨ha1, ha2⟩ := hA
    rw [repaintFresh_color, if_pos ⟨ha1, ha2⟩] at heq'
    rw [ha1, ha2, nbr_nbr hp d, Dir.opp_opp] at heq'
    rw [repaintFresh_color] at heq'
    rw [if_neg (show ¬ (p = nbr L p d ∧ d = d.opp) from
      fun hh => Dir.opp_ne d hh.2.symm)] at heq'
    rw [if_pos (show p = p ∧ d = d from ⟨rfl, rfl⟩)] at heq'
    have := freshColor_pos L
    omega
  · by_cases hB : q = p ∧ e = d
    · exfalso
      obtain ⟨hb1, hb2⟩ := hB
      rw [repaintFresh_color, if_neg hA, if_pos ⟨hb1, hb2⟩] at heq'
      rw [hb1, hb2] at heq'
      rw [repaintFresh_color] at heq'
      rw [if_pos (show nbr L p d = nbr L p d ∧ d.opp = d.opp from
        ⟨rfl, rfl⟩)] at heq'
      have := freshColor_pos L
      omega
    · have hval : (repaintFresh L p d).color q e = L.color q e := by
        rw [repaintFresh_color, if_neg hA, if_neg hB]
      have hP : ¬ (nbr L q e = nbr L p d ∧ e.opp = d.opp) := by
        rintro ⟨hh1, hh2⟩
        have hed : e = d := by
          have hco := congrArg Dir.opp hh2
          rwa [Dir.opp_opp, Dir.opp_opp] at hco
        have hqp := nbr_nbr hq e
        rw [hh1, hed, nbr_nbr hp d] at hqp
        exact hB ⟨hqp.symm, hed⟩
      have hQ : ¬ (nbr L q e = p ∧ e.opp = d) := by
        rintro ⟨hh1, hh2⟩
        have hqp := nbr_nbr hq e
        rw [hh1, hh2] at hqp
        have hed : e = d.opp := by
          have hco := congrArg Dir.opp hh2
          rwa [Dir.opp_opp] at hco
        exact hA ⟨hqp.symm, hed⟩
      have hpartner : (repaintFresh L p d).color (nbr L q e) e.opp =
          L.color (nbr L q e) e.opp := by
        rw [repaintFresh_color, if_neg hP, if_neg hQ]
      rw [structDirs, Finset.mem_filter]
      refine ⟨Finset.mem_univ e, ?_, ?_⟩
      · rw [← hval]; exact hne'
      · rw [← hval, ← hpartner]; exact heq'

theorem repaintFresh_structCount_lt (L : Lattice) (p : Pos) (d : Dir)
    (hp : validPos L p) (hd : d ∈ structDirs L p) :
    structCount (repaintFresh L p d) p < structCount L p := by
  apply Finset.card_lt_card
  rw [Finset.ssubset_iff_of_subset
    (repaintFresh_structDirs_subset L p d p hp hp)]
  refine ⟨d, hd, ?_⟩
  intro hmem
  rw [structDirs, Finset.mem_filter] at hmem
  obtain ⟨-, -, heq⟩ := hmem
  have heq' : (repaintFresh L p d).color p d =
      (repaintFresh L p d).color (nbr L p d) d.opp := heq
  rw [repaintFresh_color] at heq'
  rw [if_neg (show ¬ (p = nbr L p d ∧ d = d.opp) from
    fun hh => Dir.opp_ne d hh.2.symm)] at heq'
  rw [if_pos (show p = p ∧ d = d from ⟨rfl, rfl⟩)] at heq'
  rw [repaintFresh_color] at heq'
  rw [if_pos (show nbr L p d = nbr L p d ∧ d.opp = d.opp from
    ⟨rfl, rfl⟩)] at heq'
  have := freshColor_pos L
  omega

theorem bf3step_dims (L : Lattice) (p : Pos) :
    (bf3step L p).nx = L.nx ∧ (bf3step L p).ny = L.ny ∧
      (bf3step L p).nz = L.nz := by
  unfold bf3step
  cases firstStructDir L p with
  | none => exact ⟨rfl, rfl, rfl⟩
  | some d => exact ⟨rfl, rfl, rfl⟩

theorem validPos_congr {M L : Lattice} (h1 : M.nx = L.nx) (h2 : M.ny = L.ny)
    (h3 : M.nz = L.nz) (p : Pos) : validPos M p ↔ validPos L p := by
  unfold validPos
  rw [h1, h2, h3]

theorem bf3step_count_ge (L : Lattice) (p : Pos) (hp : validPos L p) :
    distinctColorCount L ≤ distinctColorCount (bf3step L p) := by
  unfold bf3step
  cases hfd : firstStructDir L p with
  | none => exact le_refl _
  | some d =>
    have hpred := List.find?_some hfd
    rw [decide_eq_true_eq] at hpred
    exact repaintFresh_count_ge L p d hp hpred.1 hpred.2

theorem bf3step_structCount_le (L : Lattice) (p q : Pos) (hp : validPos L p)
    (hq : validPos L q) : structCount (bf3step L p) q ≤ structCount L q := by
  unfold bf3step
  cases firstStructDir L p with
  | none => exact le_refl _
  | some d =>
    exact Finset.card_le_card (repaintFresh_structDirs_subset L p d q hp hq)

theorem bf3step_progress (L : Lattice) (p : Pos) (r : ℚ) (hp : validPos L p)
    (h0 : 0 < r) (hif : ¬ structRatio L p ≤ r) :
    structCount (bf3step L p) p < structCount L p := by
  unfold bf3step
  cases hfd : firstStructDir L p with
  | none =>
    exfalso
    apply hif
    have hempty : structDirs L p = ∅ := by
      rw [Finset.eq_empty_iff_forall_not_mem]
      intro d hd
      rw [structDirs, Finset.mem_filter] at hd
      have hfind := List.find?_eq_none.mp hfd d (mem_dirList d)
      rw [decide_eq_true_eq] at hfind
      exact hfind hd.2
    have hz : structCount L p = 0 := by rw [structCount, hempty]; rfl
    rw [structRatio, hz]
    simp only [Nat.cast_zero, zero_div]
    exact h0.le
  | some d =>
    have hpred := List.find?_some hfd
    rw [decide_eq_true_eq] at hpred
    have hd : d ∈ structDirs L p := by
      rw [structDirs, Finset.mem_filter]
      exact ⟨Finset.mem_univ d, hpred⟩
    exact repaintFresh_structCount_lt L p d hp hd

/-- Modelled from the spec: repaint the voxel's lowest-index structural slot
with a brand-new color, repeatedly, until its structural ratio falls to the
cutoff; the fuel bounds the number of repaints (at most six slots exist). -/
def bf3voxel (p : Pos) (r : ℚ) : ℕ → Lattice → Lattice
  | 0, L => L
  | fuel + 1, L =>
    if structRatio L p ≤ r then L
    else bf3voxel p r fuel (bf3step L p)

theorem bf3voxel_succ (p : Pos) (r : ℚ) (fuel : ℕ) (L : Lattice) :
    bf3voxel p r (fuel + 1) L =
      if structRatio L p ≤ r then L
      else bf3voxel p r fuel (bf3step L p) := rfl

theorem bf3voxel_dims (p : Pos) (r : ℚ) (fuel : ℕ) :
    ∀ L : Lattice, (bf3voxel p r fuel L).nx = L.nx ∧
      (bf3voxel p r fuel L).ny = L.ny ∧ (bf3voxel p r fuel L).nz = L.nz := by
  induction fuel with
  | zero => exact fun L => ⟨rfl, rfl, rfl⟩
  | succ fuel ih =>
    intro L
    rw [bf3voxel_succ]
    by_cases hif : structRatio L p ≤ r
    · rw [if_pos hif]
      exact ⟨rfl, rfl, rfl⟩
    · rw [if_neg hif]
      obtain ⟨e1, e2, e3⟩ := ih (bf3step L p)
      obtain ⟨f1, f2, f3⟩ := bf3step_dims L p
      exact ⟨e1.trans f1, e2.trans f2, e3.trans f3⟩

theorem bf3voxel_count_ge (p : Pos) (r : ℚ) (fuel : ℕ) :
    ∀ L : Lattice, validPos L p →
      distinctColorCount L ≤ distinctColorCount (bf3voxel p r fuel L) := by
  induction fuel with
  | zero => exact fun L _ => le_refl _
  | succ fuel ih =>
    intro L hp
    rw [bf3voxel_succ]
    by_cases hif : structRatio L p ≤ r
    · rw [if_pos hif]
    · rw [if_neg hif]
      have hp1 : validPos (bf3step L p) p := by
        obtain ⟨e1, e2, e3⟩ := bf3step_dims L p
        exact (validPos_congr e1 e2 e3 p).mpr hp
      exact le_trans (bf3step_count_ge L p hp) (ih (bf3step L p) hp1)

theorem bf3voxel_structCount_le (p : Pos) (r : ℚ) (fuel : ℕ) :
    ∀ (L : Lattice) (q : Pos), validPos L p → validPos L q →
      structCount (bf3voxel p r fuel L) q ≤ structCount L q := by
  induction fuel with
  | zero => exact fun L q _ _ => le_refl _
  | succ fuel ih =>
    intro L q hp hq
    rw [bf3voxel_succ]
    by_cases hif : structRatio L p ≤ r
    · rw [if_pos hif]
    · rw [if_neg hif]
      obtain ⟨e1, e2, e3⟩ := bf3step_dims L p
      have hp1 : validPos (bf3step L p) p := (validPos_congr e1 e2 e3 p).mpr hp
      have hq1 : validPos (bf3step L p) q := (validPos_congr e1 e2 e3 q).mpr hq
      exact le_trans (ih (bf3step L p) q hp1 hq1)
        (bf3step_structCount_le L p q hp hq)

theorem bf3voxel_ratio (p : Pos) (r : ℚ) (h0 : 0 < r) (fuel : ℕ) :
    ∀ L : Lattice, validPos L p → structCount L p < fuel →
      structRatio (bf3voxel p r fuel L) p ≤ r := by
  induction fuel with
  | zero => intro L _ hcnt; omega
  | succ fuel ih =>
    intro L hp hcnt
    rw [bf3voxel_succ]
    by_cases hif : structRatio L p ≤ r
    · rw [if_pos hif]
      exact hif
    · rw [if_neg hif]
      have hstep := bf3step_progress L p r hp h0 hif
      obtain ⟨e1, e2, e3⟩ := bf3step_dims L p
      have hp1 : validPos (bf3step L p) p := (validPos_congr e1 e2 e3 p).mpr hp
      exact ih (bf3step L p) hp1 (by omega)

/-- Modelled from the spec: `BindingFlexibility.binding_flexibility_3`
(tighten) — return a new lattice obtained by processing each voxel
independently, repainting structural slots with brand-new colors until each
voxel's structural ratio is at most the cutoff. -/
def binding_flexibility_3 (L : Lattice) (r : ℚ) : Lattice :=
  (allPositions L).foldl (fun M p => bf3voxel p r 7 M) L

theorem bf3fold_inv (r : ℚ) (h0 : 0 < r) (ps : List Pos) :
    ∀ L : Lattice, (∀ q ∈ ps, validPos L q) →
      (∀ q ∈ ps,
        structRatio (ps.foldl (fun M p => bf3voxel p r 7 M) L) q ≤ r) ∧
      distinctColorCount L ≤
        distinctColorCount (ps.foldl (fun M p => bf3voxel p r 7 M) L) ∧
      ((ps.foldl (fun M p => bf3voxel p r 7 M) L).nx = L.nx ∧
        (ps.foldl (fun M p => bf3voxel p r 7 M) L).ny = L.ny ∧
        (ps.foldl (fun M p => bf3voxel p r 7 M) L).nz = L.nz) ∧
      (∀ q, validPos L q →
        structCount (ps.foldl (fun M p => bf3voxel p r 7 M) L) q ≤
          structCount L q) := by
  induction ps with
  | nil =>
    intro L _
    exact ⟨fun q hq => absurd hq (List.not_mem_nil q), le_refl _,
      ⟨rfl, rfl, rfl⟩, fun q _ => le_refl _⟩
  | cons p ps ih =>
    intro L hv
    have hp : validPos L p := hv p (List.mem_cons_self p ps)
    obtain ⟨e1, e2, e3⟩ := bf3voxel_dims p r 7 L
    have hv1 : ∀ q ∈ ps, validPos (bf3voxel p r 7 L) q := fun q hq =>
      (validPos_congr e1 e2 e3 q).mpr (hv q (List.mem_cons_of_mem p hq))
    obtain ⟨ihratio, ihcount, ⟨f1, f2, f3⟩, ihmono⟩ :=
      ih (bf3voxel p r 7 L) hv1
    rw [List.foldl_cons]
    refine ⟨?_, ?_, ⟨f1.trans e1, f2.trans e2, f3.trans e3⟩, ?_⟩
    · intro q hq
      rcases List.mem_cons.mp hq with rfl | hq'
      · have hpost : structRatio (bf3voxel q r 7 L) q ≤ r :=
          bf3voxel_ratio q r h0 7 L hp
            (lt_of_le_of_lt (structCount_le_six L q) (by omega))
        have hp1 : validPos (bf3voxel q r 7 L) q :=
          (validPos_congr e1 e2 e3 q).mpr hp
        have hmono := ihmono q hp1
        rw [structRatio]
        rw [structRatio] at hpost
        calc (structCount
              (ps.foldl (fun M p => bf3voxel p r 7 M) (bf3voxel q r 7 L)) q
                : ℚ) / 6
            ≤ (structCount (bf3voxel q r 7 L) q : ℚ) / 6 := by
              rw [div_le_div_right (by norm_num : (0 : ℚ) < 6)]
              exact_mod_cast hmono
          _ ≤ r := hpost
      · exact ihratio q hq'
    · exact le_trans (bf3voxel_count_ge p r 7 L hp) ihcount
    · intro q hq
      have hq1 : validPos (bf3voxel p r 7 L) q :=
        (validPos_congr e1 e2 e3 q).mpr hq
      exact le_trans (ihmono q hq1) (bf3voxel_structCount_le p r 7 L q hp hq)

/-- C9: for every fully painted lattice and every cutoff ratio in `(0, 1]`,
BF3 (tighten) never decreases the number of distinct nonzero `|color|`
values — each repaint uses a brand-new color and removes at most the one old
color of the repainted bond — and every voxel of the result has structural
ratio at most the cutoff. -/
theorem claim_c9_bf3_monotone_and_ratio (L : Lattice) (r : ℚ)
    (hfp : fullyPainted L) (h0 : 0 < r) (h1 : r ≤ 1) :
    distinctColorCount L ≤ distinctColorCount (binding_flexibility_3 L r) ∧
      ∀ p, validPos L p → structRatio (binding_flexibility_3 L r) p ≤ r := by
  have hv : ∀ q ∈ allPositions L, validPos L q := fun q hq =>
    mem_allPositions.mp hq
  obtain ⟨hratio, hcount, -, -⟩ := bf3fold_inv r h0 (allPositions L) L hv
  exact ⟨hcount, fun p hp => hratio p (mem_allPositions.mpr hp)⟩

/-- Witness for C9 on the painted single-voxel lattice with cutoff `1`:
the distinct-color count does not decrease and the voxel's post-BF3
structural ratio is at most the cutoff. -/
theorem claim_c9_bf3_monotone_and_ratio_witness :
    distinctColorCount painted1x1 ≤
      distinctColorCount (binding_flexibility_3 painted1x1 1) ∧
      structRatio (binding_flexibility_3 painted1x1 1) (0, 0, 0) ≤ 1 :=
  ⟨(claim_c9_bf3_monotone_and_ratio painted1x1 1 painted1x1_fullyPainted
      (by norm_num) (le_refl 1)).1,
    (claim_c9_bf3_monotone_and_ratio painted1x1 1 painted1x1_fullyPainted
      (by norm_num) (le_refl 1)).2 (0, 0, 0) (by decide)⟩

/-- Modelled from the spec: a `BindingFlexibility` call on a painted lattice
— the post-processor reads the held input lattice, builds a new lattice, and
returns it; the pair records the returned lattice and the input as it stands
after the call. -/
def bf1Call (L : Lattice) (rad : ℕ) : Lattice × Lattice :=
  (binding_flexibility_1 L rad, L)

/-- The BF3 call, analogous to `bf1Call`. -/
def bf3Call (L : Lattice) (r : ℚ) : Lattice × Lattice :=
  (binding_flexibility_3 L r, L)

theorem bf3step_material (L : Lattice) (p : Pos) :
    (bf3step L p).material = L.material := by
  unfold bf3step
  cases firstStructDir L p <;> rfl

theorem bf3voxel_material (p : Pos) (r : ℚ) (fuel : ℕ) :
    ∀ L : Lattice, (bf3voxel p r fuel L).material = L.material := by
  induction fuel with
  | zero => exact fun L => rfl
  | succ fuel ih =>
    intro L
    rw [bf3voxel_succ]
    by_cases hif : structRatio L p ≤ r
    · rw [if_pos hif]
    · rw [if_neg hif]
      exact (ih (bf3step L p)).trans (bf3step_material L p)

theorem bf3fold_material (r : ℚ) (ps : List Pos) :
    ∀ L : Lattice,
      (ps.foldl (fun M p => bf3voxel p r 7 M) L).material = L.material := by
  induction ps with
  | nil => exact fun L => rfl
  | cons p ps ih =>
    intro L
    rw [List.foldl_cons]
    exact (ih (bf3voxel p r 7 L)).trans (bf3voxel_material p r 7 L)

theorem bf3fold_dims (r : ℚ) (ps : List Pos) :
    ∀ L : Lattice,
      (ps.foldl (fun M p => bf3voxel p r 7 M) L).nx = L.nx ∧
      (ps.foldl (fun M p => bf3voxel p r 7 M) L).ny = L.ny ∧
      (ps.foldl (fun M p => bf3voxel p r 7 M) L).nz = L.nz := by
  induction ps with
  | nil => exact fun L => ⟨rfl, rfl, rfl⟩
  | cons p ps ih =>
    intro L
    rw [List.foldl_cons]
    obtain ⟨e1, e2, e3⟩ := ih (bf3voxel p r 7 L)
    obtain ⟨f1, f2, f3⟩ := bf3voxel_dims p r 7 L
    exact ⟨e1.trans f1, e2.trans f2, e3.trans f3⟩

/-- C10: both binding-flexibility post-processors are pure
`Lattice → Lattice` functions: each call returns a new lattice — computed
from the input, over the same grid shape and materials, with only bond
colors adjusted — and every bond color of the input lattice is unchanged
after the call. -/
theorem claim_c10_bf_pure (L : Lattice) (rad : ℕ) (r : ℚ) :
    ((bf1Call L rad).2 = L ∧
      ∀ p d, (bf1Call L rad).2.color p d = L.color p d) ∧
    ((bf3Call L r).2 = L ∧
      ∀ p d, (bf3Call L r).2.color p d = L.color p d) ∧
    (bf1Call L rad).1 = binding_flexibility_1 L rad ∧
    (bf3Call L r).1 = binding_flexibility_3 L r ∧
    ((bf1Call L rad).1.material = L.material ∧
      (bf1Call L rad).1.nx = L.nx ∧ (bf1Call L rad).1.ny = L.ny ∧
      (bf1Call L rad).1.nz = L.nz) ∧
    ((bf3Call L r).1.material = L.material ∧
      (bf3Call L r).1.nx = L.nx ∧ (bf3Call L r).1.ny = L.ny ∧
      (bf3Call L r).1.nz = L.nz) := by
  obtain ⟨e1, e2, e3⟩ := bf3fold_dims r (allPositions L) L
  exact ⟨⟨rfl, fun p d => rfl⟩, ⟨rfl, fun p d => rfl⟩, rfl, rfl,
    ⟨rfl, rfl, rfl, rfl⟩,
    ⟨bf3fold_material r (allPositions L) L, e1, e2, e3⟩⟩

end Chroma
